import Mathlib

/-!
Verification development for the k9 debug-console command pipeline
(`src/debug_ui/console.rs`): value parsing, argument binding, command
registration, parse-tree selection, parse-tree reduction (escape decoding),
and autocomplete selection logic.

Rust `String` values are modelled as `List Char`; `BTreeMap` is modelled by
an association list supporting the exact operations the source uses
(`insert` returning the previous value, `remove`, key lookup, ordered
iteration is taken as the sorted key list where relevant).  Fallible code
returns `Option`/`Except`; an `unwrap()` on `None` (a Rust panic) is
modelled by a dedicated outcome.
-/

namespace K9

/-- Rust `String`, modelled as its character sequence. -/
abbrev Str := List Char

/-- Rust `str::starts_with` on the character-sequence model. -/
def strStartsWith : Str → Str → Bool
  | _, [] => true
  | [], _ :: _ => false
  | c :: s, p :: ps => c = p && strStartsWith s ps

/-- Association-list model of `BTreeMap` lookup (`get`). -/
def lookupAL {α : Type} : List (Str × α) → Str → Option α
  | [], _ => none
  | (k', v') :: rest, k => if k' = k then some v' else lookupAL rest k

/-- Association-list model of `BTreeMap::insert`: replaces the value under an
existing key and returns the previous value, otherwise adds the new binding
and returns `none`. -/
def insertAL {α : Type} : List (Str × α) → Str → α → List (Str × α) × Option α
  | [], k, v => ([(k, v)], none)
  | (k', v') :: rest, k, v =>
    if k' = k then ((k', v) :: rest, some v')
    else
      let r := insertAL rest k v
      ((k', v') :: r.1, r.2)

/-- Association-list model of `BTreeMap::remove`: returns the removed value
(if any) and the remaining map. -/
def removeAL {α : Type} : List (Str × α) → Str → Option α × List (Str × α)
  | [], _ => (none, [])
  | (k', v') :: rest, k =>
    if k' = k then (some v', rest)
    else
      let r := removeAL rest k
      (r.1, (k', v') :: r.2)

/-- Keys of an association list, in storage order. -/
def keysAL {α : Type} (m : List (Str × α)) : List Str := m.map (·.1)

/-- Enumeration `CallbackArgumentType` from `console.rs`. -/
inductive CallbackArgumentType where
  | Float32
  | Float64
  | Int32
  | Int64
  | String
  | Bool
  | Flag
deriving DecidableEq

/-- Structure `CallbackArgumentDefinition` from `console.rs`. -/
structure CallbackArgumentDefinition where
  name : Str
  cba_type : CallbackArgumentType
  optional : Bool
deriving DecidableEq

/-- Tagged union `CallbackArgumentValue` from `console.rs`.  Float payloads
keep the raw accepted text: no claim observes a float's numeric value, and
IEEE rounding of Rust's float parse is outside the shallow embedding. -/
inductive CallbackArgumentValue where
  | Float32 (raw : Str)
  | Float64 (raw : Str)
  | Int32 (x : Int)
  | Int64 (x : Int)
  | String (s : Str)
  | Bool (b : Bool)
  | Flag (b : Bool)
deriving DecidableEq

/-- Digit-accumulator loop shared by the integer-parse models. -/
def digitsVal : Str → Nat → Option Nat
  | [], acc => some acc
  | c :: rest, acc =>
    if c.isDigit then digitsVal rest (acc * 10 + (c.toNat - '0'.toNat)) else none

/-- Value of a non-empty all-digit string, `none` otherwise. -/
def parseDigitsAll : Str → Option Nat
  | [] => none
  | c :: rest => digitsVal (c :: rest) 0

/-- Model of Rust `str::parse` for a bounded signed integer type: optional
single leading sign, then one or more ASCII digits, with a range check. -/
def rustParseIntRange (s : Str) (lo hi : Int) : Option Int :=
  match s with
  | '+' :: rest =>
    (parseDigitsAll rest).bind fun n => if (n : Int) ≤ hi then some (n : Int) else none
  | '-' :: rest =>
    (parseDigitsAll rest).bind fun n => if lo ≤ -(n : Int) then some (-(n : Int)) else none
  | _ =>
    (parseDigitsAll s).bind fun n => if (n : Int) ≤ hi then some (n : Int) else none

/-- Model of Rust `str::parse::<i32>`. -/
def rustParseI32 (s : Str) : Option Int := rustParseIntRange s (-(2 ^ 31)) (2 ^ 31 - 1)

/-- Model of Rust `str::parse::<i64>`. -/
def rustParseI64 (s : Str) : Option Int := rustParseIntRange s (-(2 ^ 63)) (2 ^ 63 - 1)

/-- Model of Rust `str::parse::<bool>`: accepts exactly `true` and `false`. -/
def rustParseBool (s : Str) : Option Bool :=
  if s = "true".data then some true
  else if s = "false".data then some false
  else none

/-- All characters are ASCII digits. -/
def allDigits (s : Str) : Bool := s.all Char.isDigit

/-- Strip one optional leading sign character. -/
def stripSign : Str → Str
  | '+' :: rest => rest
  | '-' :: rest => rest
  | s => s

/-- Mantissa shape of Rust's float grammar: digits with at most one dot and
at least one digit overall. -/
def mantissaOk (s : Str) : Bool :=
  let pre := s.takeWhile Char.isDigit
  match s.dropWhile Char.isDigit with
  | [] => !pre.isEmpty
  | '.' :: frac => (!pre.isEmpty || !frac.isEmpty) && allDigits frac
  | _ => false

/-- Split a float body at the first exponent marker `e`/`E`. -/
def splitExp (s : Str) : Str × Option Str :=
  let m := s.takeWhile fun c => !(c = 'e' || c = 'E')
  match s.dropWhile fun c => !(c = 'e' || c = 'E') with
  | [] => (m, none)
  | _ :: ex => (m, some ex)

/-- Exponent shape: optional sign then one or more digits. -/
def expOk (s : Str) : Bool :=
  let b := stripSign s
  !b.isEmpty && allDigits b

/-- Model of the acceptance set of Rust `str::parse::<f32>` / `::<f64>`
(special names case-insensitively, otherwise mantissa with optional
exponent); the numeric rounding itself is not modelled. -/
def rustParseFloatOk (s : Str) : Bool :=
  let b := stripSign s
  let lower := b.map Char.toLower
  if lower = "inf".data || lower = "infinity".data || lower = "nan".data then true
  else
    let me := splitExp b
    mantissaOk me.1 &&
      (match me.2 with
       | none => true
       | some ex => expOk ex)

/-- Translation of `parse_value_via_definition` from `console.rs`: converts a
raw string into a typed value according to the definition's declared type,
`none` on parse failure (the source additionally logs the failure). -/
def parse_value_via_definition (value : Str) (d : CallbackArgumentDefinition) :
    Option CallbackArgumentValue :=
  match d.cba_type with
  | .Int32 =>
    match rustParseI32 value with
    | some x => some (.Int32 x)
    | none => none
  | .Int64 =>
    match rustParseI64 value with
    | some x => some (.Int64 x)
    | none => none
  | .Float32 => if rustParseFloatOk value then some (.Float32 value) else none
  | .Float64 => if rustParseFloatOk value then some (.Float64 value) else none
  | .String => some (.String value)
  | .Bool =>
    match rustParseBool value with
    | some x => some (.Bool x)
    | none =>
      if value.length = 1 then
        if strStartsWith value "0".data then some (.Bool false)
        else if strStartsWith value "1".data then some (.Bool true)
        else none
      else none
  | .Flag => some (.Flag true)

/-- Recognizer for the `Flag` parameter type (the source's
`if let CallbackArgumentType::Flag = def.cba_type` test). -/
def isFlagType : CallbackArgumentType → Bool
  | .Flag => true
  | _ => false

/-- Error classes reported by the argument binder in `DebugConsole::draw`
(the source logs each as an error-severity message). -/
inductive BindError where
  | duplicateParameter (name : Str)
  | argumentParseError (name : Str)
  | tooFewArguments
  | tooManyArguments
deriving DecidableEq

/-- Final mapping passed to a command callback. -/
abbrev ArgMap := List (Str × CallbackArgumentValue)

/-- Outcome of binding a submitted argument list against a command:
`ok m` means the callback is invoked with mapping `m`; `err e` means the
error is reported and the callback is not invoked; `panicked` models a Rust
`unwrap()` on `None` (a process panic). -/
inductive BindOutcome where
  | ok (complete : ArgMap)
  | err (e : BindError)
  | panicked
deriving DecidableEq

/-- Translation of the argument-collection loop (`console.rs` lines
584-597): splits the reduced parameters into named arguments (flags arrive
here as `(name, "true")`) and the positional-value queue; an insert that
would overwrite an existing named key aborts with that name. -/
def collectArgs : List (Str × Str) → List (Str × Str) → List Str →
    Except Str (List (Str × Str) × List Str)
  | [], named, indexed => .ok (named, indexed)
  | (n, v) :: rest, named, indexed =>
    if n = [] then collectArgs rest named (indexed ++ [v])
    else
      let r := insertAL named n v
      match r.2 with
      | some _ => .error n
      | none => collectArgs rest r.1 indexed

/-- Translation of the definition-processing loop (`console.rs` lines
603-625): for each definition in declaration order, a supplied named value
is parsed and inserted (parse failure aborts with the definition's name), a
missing flag is bound to `Flag(false)`, and every other missing definition
is deferred to the mandatory or optional queue. -/
def processDefs : List CallbackArgumentDefinition → List (Str × Str) → ArgMap →
    List CallbackArgumentDefinition → List CallbackArgumentDefinition →
    Except Str (ArgMap × List CallbackArgumentDefinition × List CallbackArgumentDefinition)
  | [], _, complete, mm, mo => .ok (complete, mm, mo)
  | d :: rest, named, complete, mm, mo =>
    let r := removeAL named d.name
    match r.1 with
    | some value =>
      match parse_value_via_definition value d with
      | some av => processDefs rest r.2 (insertAL complete d.name av).1 mm mo
      | none => .error d.name
    | none =>
      if isFlagType d.cba_type then
        processDefs rest named (insertAL complete d.name (.Flag false)).1 mm mo
      else
        if d.optional then processDefs rest named complete mm (mo ++ [d])
        else processDefs rest named complete (mm ++ [d]) mo

/-- Translation of the positional-consumption loop (`console.rs` lines
635-647): runs exactly `n` iterations (the source iterates `0..indexed_len`),
popping one positional value and one missing definition per iteration; a
`pop_front().unwrap()` on an emptied queue is the panic outcome. -/
def consumeIndexed : Nat → List Str → List CallbackArgumentDefinition → ArgMap → BindOutcome
  | 0, _, _, complete => .ok complete
  | _ + 1, [], _, _ => .panicked
  | _ + 1, _ :: _, [], _ => .panicked
  | n + 1, v :: vals, d :: defs, complete =>
    match parse_value_via_definition v d with
    | some av => consumeIndexed n vals defs (insertAL complete d.name av).1
    | none => .err (.argumentParseError d.name)

/-- Translation of the full argument-binding pipeline of `DebugConsole::draw`
(`console.rs` lines 580-666) for a found command: collect named/positional
arguments, process the definitions, then match positional values against the
missing definitions (mandatory queue first, then optional). -/
def bindArgs (args : List (Str × Str)) (defs : List CallbackArgumentDefinition) : BindOutcome :=
  match collectArgs args [] [] with
  | .error n => .err (.duplicateParameter n)
  | .ok (named, indexed) =>
    match processDefs defs named [] [] [] with
    | .error n => .err (.argumentParseError n)
    | .ok (complete, mm, mo) =>
      let mandatory_len := mm.length
      let missed_defs := mm ++ mo
      let total_len := missed_defs.length
      let indexed_len := indexed.length
      if mandatory_len ≤ indexed_len then
        consumeIndexed indexed_len indexed missed_defs complete
      else if total_len < indexed_len then .err .tooManyArguments
      else .err .tooFewArguments

/-- Translation of the dispatch branch on the presence of an argument
subtree (`console.rs` lines 564-685), for a line whose command was found in
the registry: with arguments, the binder runs; with no argument subtree at
all, the callback is invoked directly with an empty `BTreeMap`. -/
def dispatchArgs (defs : List CallbackArgumentDefinition)
    (argsOpt : Option (List (Str × Str))) : BindOutcome :=
  match argsOpt with
  | some args => bindArgs args defs
  | none => .ok []

/-- Recognizer for the `TooManyArguments` outcome. -/
def isTooManyErr : BindOutcome → Bool
  | .err .tooManyArguments => true
  | _ => false

/-- Names of the parameters supplied by name (flags included) in a reduced
argument list. -/
def namedKeys (args : List (Str × Str)) : List Str :=
  (args.filter fun a => !(a.1 = [] : Bool)).map (·.1)

/-- Parse a positional-value list against a definition list pairwise, in
order: `some pairs` exactly when every value parses against its
definition (and there are enough definitions), where `pairs` lists the
`(name, value)` insertions performed. -/
def zipParseAll : List Str → List CallbackArgumentDefinition → Option ArgMap
  | [], _ => some []
  | _ :: _, [] => none
  | v :: vals, d :: defs =>
    match parse_value_via_definition v d with
    | some av =>
      match zipParseAll vals defs with
      | some pairs => some ((d.name, av) :: pairs)
      | none => none
    | none => none

/-- Fold a list of insertions into an argument map. -/
def insertAll (m : ArgMap) (pairs : ArgMap) : ArgMap :=
  pairs.foldl (fun acc p => (insertAL acc p.1 p.2).1) m

/-- Translation of the built-in command registration in `DebugConsole::new`
(`console.rs` lines 55-60): the `BTreeMap` idiom
`entry(name).and_modify(warn).or_insert(cmd)` keeps the entry already stored
under `name` (the `and_modify` closure only logs a warning) and inserts
`cmd` only when the name is vacant.  Returns the updated registry and
whether the overwrite warning was emitted. -/
def entryAndModifyOrInsert {α : Type} (registry : List (Str × α)) (name : Str) (cmd : α) :
    List (Str × α) × Bool :=
  match lookupAL registry name with
  | some _ => (registry, true)
  | none => ((insertAL registry name cmd).1, false)

/-- Parse tree node of the `bnf` crate as consumed by `console.rs`:
a terminal carries matched text, a nonterminal carries its production name
and ordered children. -/
inductive ParseTreeNode where
  | Terminal (t : Str)
  | Nonterminal (lhs : Str) (rhs : List ParseTreeNode)

/-- Result of the parse-tree counting loop and zero/one/many policy in
`DebugConsole::draw` (`console.rs` lines 526-552 and 686-691):
`tree` is the tree dispatch proceeds with, `ambiguousReported` records the
`"ambigious command, multiple valid parse trees."` error log, and
`invalidReported` records the `"invalid console command"` error log emitted
when no tree survives the policy. -/
structure ParseSelection where
  tree : Option ParseTreeNode
  ambiguousReported : Bool
  invalidReported : Bool

/-- Translation of the parse-tree selection logic: the `while let` loop
keeps the last enumerated tree and counts them; a count different from one
logs the ambiguity error and drops the tree; dispatch then reports an
invalid command exactly when no tree is left. -/
def selectParseTree (trees : List ParseTreeNode) : ParseSelection :=
  let val := trees.getLast?
  let pt_count := trees.length
  let val := if pt_count ≠ 1 then none else val
  { tree := val
    ambiguousReported := decide (pt_count ≠ 1)
    invalidReported := val.isNone }

/-- Warning text logged by `expand_parse_tree_node` for an unrecognized
escape sequence. -/
def unrecognizedEscapeWarning (c : Str) : Str :=
  "unrecognized escape sequence: \\".data ++ c

mutual

/-- Translation of `expand_parse_tree_node` from `console.rs` (lines
1018-1054), with the warning log modelled as an accumulated list: an
`<escape_char>` nonterminal skips its backslash child, expands the escaped
child, maps the five recognized results (`"`, CR, LF, TAB, `\`) to
themselves and passes any other result through raw with a warning; every
other nonterminal concatenates its children's expansions; a terminal yields
its text.  `none` models the source's `unwrap()` panic on a structurally
malformed `<escape_char>` node. -/
def expand_parse_tree_node : ParseTreeNode → Option (Str × List Str)
  | .Terminal t => some (t, [])
  | .Nonterminal lhs rhs =>
    if lhs = "<escape_char>".data then
      match rhs with
      | _ :: cnode :: _ =>
        match expand_parse_tree_node cnode with
        | some (c, w) =>
          if c = "\"".data then some ("\"".data, w)
          else if c = "\r".data then some ("\r".data, w)
          else if c = "\n".data then some ("\n".data, w)
          else if c = "\t".data then some ("\t".data, w)
          else if c = "\\".data then some ("\\".data, w)
          else some (c, w ++ [unrecognizedEscapeWarning c])
        | none => none
      | _ => none
    else expandNodeList rhs

/-- Expansion of a child sequence: concatenates values and warnings in
order (the source's `while let` append loop). -/
def expandNodeList : List ParseTreeNode → Option (Str × List Str)
  | [] => some ([], [])
  | x :: xs =>
    match expand_parse_tree_node x with
    | some (v, w) =>
      match expandNodeList xs with
      | some (vs, ws) => some (v ++ vs, w ++ ws)
      | none => none
    | none => none

end

/-- Translation of `expand_command_param_value` from `console.rs` (lines
1142-1160), acting on the `<value>` node's child list: a nonterminal first
child is a `<string_implicit>` and is expanded directly; a terminal `""`
yields the empty string; any other terminal is the opening quote, and the
following `<string_explicit>` child is expanded.  `none` models the
source's `unwrap()` panics on missing children. -/
def expand_command_param_value (rhs : List ParseTreeNode) : Option (Str × List Str) :=
  match rhs with
  | [] => none
  | first :: rest =>
    match first with
    | .Nonterminal _ _ => expand_parse_tree_node first
    | .Terminal t =>
      if t = "\"\"".data then some ([], [])
      else
        match rest with
        | [] => none
        | se :: _ => expand_parse_tree_node se

/-- Tracking step of the candidate-gathering loop: records the running
match index when the current name equals the previously selected one. -/
def trackIdx (pname : Option Str) (c : Str) (it : Nat) (pidx : Option Nat) : Option Nat :=
  match pname with
  | some n => if c = n then some it else pidx
  | none => pidx

/-- Candidate-gathering loop of the autocomplete logic (`console.rs` lines
487-499): walks the registry's command names in iteration order, appends
each name starting with the input text, and records the running match index
`it` whenever the previously selected name is encountered. -/
def gatherLoop : List Str → Str → Option Str → List Str → Nat → Option Nat →
    List Str × Option Nat
  | [], _, _, acc, _, pidx => (acc, pidx)
  | c :: cs, input, pname, acc, it, pidx =>
    if strStartsWith c input then
      gatherLoop cs input pname (acc ++ [c]) (it + 1) (trackIdx pname c it pidx)
    else gatherLoop cs input pname acc it pidx

/-- Translation of the autocomplete recomputation run on every edit of the
console text (`console.rs` lines 481-509): the previous selection is taken
and the candidate list cleared; on non-empty input the candidates are
regathered, the previous selection is re-selected at its new index when its
name reappears, and otherwise index 0 is selected when candidates exist.
`commands` is the registry's key sequence in `BTreeMap` iteration order. -/
def recomputeAutocomplete (commands : List Str) (input : Str)
    (prev : Option (Str × Nat)) : List Str × Option (Str × Nat) :=
  if input = [] then ([], none)
  else
    match gatherLoop commands input (prev.map (·.1)) [] 0 none with
    | (cands, some idx) => (cands, some (cands.getD idx [], idx))
    | (cands, none) =>
      if cands.isEmpty then (cands, none)
      else (cands, some (cands.getD 0 [], 0))

/-- Translation of the ArrowUp autocomplete navigation (`console.rs` lines
706-717): with a selection at index 0 the selection wraps to the last
candidate, otherwise it moves to the previous candidate; without a
selection nothing happens.  Out-of-bounds indexing (a Rust panic only
reachable with an invalid selection) is modelled totally with `getD`. -/
def navUp (cmds : List Str) (sel : Option (Str × Nat)) : Option (Str × Nat) :=
  match sel with
  | some (_, it) =>
    if it = 0 then
      let len := cmds.length
      some (cmds.getD (len - 1) [], len - 1)
    else some (cmds.getD (it - 1) [], it - 1)
  | none => none

/-- Translation of the ArrowDown autocomplete navigation (`console.rs` lines
718-728): with a selection at the last index (the source compares via `i32`
casts to handle an empty list) the selection wraps to index 0, otherwise it
moves to the next candidate; without a selection nothing happens. -/
def navDown (cmds : List Str) (sel : Option (Str × Nat)) : Option (Str × Nat) :=
  match sel with
  | some (_, it) =>
    if (it : Int) = (cmds.length : Int) - 1 then some (cmds.getD 0 [], 0)
    else some (cmds.getD (it + 1) [], it + 1)
  | none => none

/-- Isolated `<escape_char>` parse-tree node for the two-character input
sequence backslash-`c`, as produced for a quoted string. -/
def escapeNode (c : Str) : ParseTreeNode :=
  .Nonterminal "<escape_char>".data [.Terminal "\\".data, .Terminal c]

/-- Modelled from the spec: the grammar file `console_command.bnf` is absent
from `src/`, so the parse-tree shape follows the section 4.1 productions
(`value := "\"" string_explicit "\""`, `string_explicit` a sequence of plain
characters and backslash escapes).  This is the `<value>` child list for the
quoted input text `"a\"b\nc"` — the characters `a`, escape backslash-quote,
`b`, escape backslash-`n`, `c` between two quote terminals. -/
def c6ValueNodes : List ParseTreeNode :=
  [.Terminal "\"".data,
   .Nonterminal "<string_explicit>".data
     [.Terminal "a".data, escapeNode "\"".data, .Terminal "b".data,
      escapeNode "n".data, .Terminal "c".data],
   .Terminal "\"".data]

/-- The `consumeIndexed` loop can fail with a parse error or a panic but
never reports `TooManyArguments`. -/
theorem isTooManyErr_consumeIndexed (n : Nat) (vals : List Str)
    (defs : List CallbackArgumentDefinition) (complete : ArgMap) :
    isTooManyErr (consumeIndexed n vals defs complete) = false := by
  induction n generalizing vals defs complete with
  | zero => rfl
  | succ n ih =>
    match vals, defs with
    | [], _ => rfl
    | _ :: _, [] => rfl
    | v :: vals, d :: defs =>
      simp only [consumeIndexed]
      cases parse_value_via_definition v d with
      | some av => exact ih ..
      | none => rfl

/-- C1: the claim that a positional surplus (`indexed_len > total_len`)
fails with a recoverable `TooManyArguments` is violated by the code: a
command with two mandatory `String` parameters invoked with three
positional values reaches the consumption loop (since
`indexed_len >= mandatory_len`) and panics unwrapping the emptied
missing-definitions queue; the `"too many arguments."` branch is dead code,
reachable only under the contradictory condition
`indexed_len < mandatory_len ∧ indexed_len > total_len`, so no binding ever
reports `TooManyArguments`. -/
theorem c1_too_many_arguments_panics :
    bindArgs [([], "x".data), ([], "y".data), ([], "z".data)]
        [⟨"a".data, .String, false⟩, ⟨"b".data, .String, false⟩] = .panicked ∧
    ∀ (args : List (Str × Str)) (defs : List CallbackArgumentDefinition),
      isTooManyErr (bindArgs args defs) = false := by
  constructor
  · decide
  · intro args defs
    cases hc : collectArgs args [] [] with
    | error n => simp [bindArgs, hc, isTooManyErr]
    | ok p =>
      obtain ⟨named, indexed⟩ := p
      cases hp : processDefs defs named [] [] [] with
      | error n => simp [bindArgs, hc, hp, isTooManyErr]
      | ok q =>
        obtain ⟨complete, mm, mo⟩ := q
        by_cases h : mm.length ≤ indexed.length
        · simp [bindArgs, hc, hp, h, isTooManyErr_consumeIndexed]
        · have h2 : ¬ (mm.length + mo.length < indexed.length) := by omega
          simp [bindArgs, hc, hp, h, h2, isTooManyErr]

/-- C2: the claim that a bare command name binds a `Flag` parameter to
`Flag(false)` is violated by the code: the no-argument dispatch branch
invokes the callback with an empty `BTreeMap`, so the flag parameter is
absent from the mapping (macro-generated callbacks then fail with a
"missing variable" error), whereas the binder path — which a bare line
never takes — would indeed produce `Flag(false)`. -/
theorem c2_bare_flag_command_gets_empty_map :
    dispatchArgs [⟨"value".data, .Flag, false⟩] none = .ok [] ∧
    lookupAL ([] : ArgMap) "value".data = none ∧
    bindArgs [] [⟨"value".data, .Flag, false⟩] = .ok [("value".data, .Flag false)] := by
  decide

/-- C3 counterexample: registering a command under an already-present name
does not overwrite the existing entry — with `0` stored under the built-in
name, registering `1` leaves the registry unchanged (lookup still yields
`0`, not the newly registered `1`), though the warning is emitted. -/
theorem c3_register_overwrite_refuted :
    entryAndModifyOrInsert [("k9_debug_console_command".data, 0)]
        "k9_debug_console_command".data 1 =
      ([("k9_debug_console_command".data, 0)], true) ∧
    lookupAL (entryAndModifyOrInsert [("k9_debug_console_command".data, 0)]
        "k9_debug_console_command".data 1).1 "k9_debug_console_command".data = some 0 ∧
    decide (lookupAL (entryAndModifyOrInsert [("k9_debug_console_command".data, 0)]
        "k9_debug_console_command".data 1).1 "k9_debug_console_command".data = some 1)
      = false := by
  decide

/-- C3 amended: registering under a name already present in the registry
keeps the previously stored command (the new command is discarded) and
emits the warning; lookup afterwards yields the old entry.  Registration
under a vacant name inserts without a warning. -/
theorem c3_register_keeps_existing {α : Type} (registry : List (Str × α))
    (name : Str) (cmd old : α) (h : lookupAL registry name = some old) :
    entryAndModifyOrInsert registry name cmd = (registry, true) ∧
    lookupAL (entryAndModifyOrInsert registry name cmd).1 name = some old := by
  unfold entryAndModifyOrInsert
  rw [h]
  exact ⟨rfl, h⟩

/-- C3 witness: the amended statement at a concrete registry. -/
theorem c3_register_keeps_existing_witness :
    entryAndModifyOrInsert [("quit".data, 7)] "quit".data 9 = ([("quit".data, 7)], true) ∧
    lookupAL (entryAndModifyOrInsert [("quit".data, 7)] "quit".data 9).1 "quit".data
      = some 7 :=
  c3_register_keeps_existing [("quit".data, 7)] "quit".data 9 7 (by decide)

/-- C4 counterexample: a line yielding zero parse trees is reported with
the ambiguous-command error (the code's `pt_count != 1` test lumps zero
together with many), refuting the claim that the ambiguous error is
reported exactly when more than one tree is produced. -/
theorem c4_zero_trees_reported_ambiguous :
    ([] : List ParseTreeNode).length = 0 ∧
    (selectParseTree []).ambiguousReported = true ∧
    (selectParseTree []).invalidReported = true := by
  exact ⟨rfl, rfl, rfl⟩

/-- C4 amended: the ambiguous-command error is reported exactly when the
enumeration yields a number of trees different from one (zero included);
the syntactically-invalid error is reported in exactly the same cases; and
dispatch proceeds to a tree — the only path on which a callback can be
invoked — exactly when the enumeration yields one tree. -/
theorem c4_parse_tree_policy (trees : List ParseTreeNode) :
    (selectParseTree trees).ambiguousReported = decide (trees.length ≠ 1) ∧
    (selectParseTree trees).invalidReported = decide (trees.length ≠ 1) ∧
    ((selectParseTree trees).tree.isSome ↔ trees.length = 1) := by
  refine ⟨rfl, ?_, ?_⟩ <;> by_cases h : trees.length = 1
  · have hne : trees ≠ [] := by
      intro he
      rw [he] at h
      exact absurd h (by decide)
    obtain ⟨x, hx⟩ := Option.isSome_iff_exists.mp (List.getLast?_isSome.mpr hne)
    simp [selectParseTree, h, hx]
  · simp [selectParseTree, h]
  · have hne : trees ≠ [] := by
      intro he
      rw [he] at h
      exact absurd h (by decide)
    obtain ⟨x, hx⟩ := Option.isSome_iff_exists.mp (List.getLast?_isSome.mpr hne)
    simp [selectParseTree, h, hx]
  · simp [selectParseTree, h]

/-- C10: with a selection over a non-empty candidate list, ArrowUp at index
0 wraps to the last candidate and ArrowDown at the last index wraps to
index 0; at any other valid index they move the selection by -1/+1; and
neither ever clears an existing selection. -/
theorem c10_nav_wraps (cmds : List Str) (name : Str) (it : Nat)
    (hne : cmds ≠ []) (hlt : it < cmds.length) :
    (it = 0 →
      navUp cmds (some (name, it)) = some (cmds.getD (cmds.length - 1) [], cmds.length - 1)) ∧
    (it ≠ 0 → navUp cmds (some (name, it)) = some (cmds.getD (it - 1) [], it - 1)) ∧
    (it = cmds.length - 1 → navDown cmds (some (name, it)) = some (cmds.getD 0 [], 0)) ∧
    (it ≠ cmds.length - 1 →
      navDown cmds (some (name, it)) = some (cmds.getD (it + 1) [], it + 1)) ∧
    (navUp cmds (some (name, it))).isSome = true ∧
    (navDown cmds (some (name, it))).isSome = true := by
  have hpos : 0 < cmds.length := List.length_pos.mpr hne
  refine ⟨fun h0 => ?_, fun h0 => ?_, fun hl => ?_, fun hl => ?_, ?_, ?_⟩
  · simp [navUp, h0]
  · simp [navUp, h0]
  · have hc2 : (it : Int) = (cmds.length : Int) - 1 := by omega
    simp [navDown, hc2]
  · have hc2 : ¬ ((it : Int) = (cmds.length : Int) - 1) := by omega
    simp [navDown, hc2]
  · by_cases h0 : it = 0 <;> simp [navUp, h0]
  · by_cases hl : (it : Int) = (cmds.length : Int) - 1 <;> simp [navDown, hl]

/-- The previous-value component of an insert is the lookup result. -/
theorem insertAL_snd {α : Type} (m : List (Str × α)) (k : Str) (v : α) :
    (insertAL m k v).2 = lookupAL m k := by
  induction m with
  | nil => rfl
  | cons p rest ih =>
    obtain ⟨k', v'⟩ := p
    by_cases h : k' = k
    · simp [insertAL, lookupAL, h]
    · simp [insertAL, lookupAL, h, ih]

/-- Inserting a fresh key appends it to the key sequence. -/
theorem keysAL_insert_of_lookup_none {α : Type} (m : List (Str × α)) (k : Str) (v : α)
    (h : lookupAL m k = none) : keysAL (insertAL m k v).1 = keysAL m ++ [k] := by
  induction m with
  | nil => rfl
  | cons p rest ih =>
    obtain ⟨k', v'⟩ := p
    by_cases hk : k' = k
    · rw [lookupAL, if_pos hk] at h
      exact absurd h (by simp)
    · rw [lookupAL, if_neg hk] at h
      simp [insertAL, keysAL, hk] at ih ⊢
      exact ih h

/-- A key that fails to look up is not among the keys. -/
theorem not_mem_keys_of_lookup_none {α : Type} (m : List (Str × α)) (k : Str)
    (h : lookupAL m k = none) : k ∉ keysAL m := by
  induction m with
  | nil => simp [keysAL]
  | cons p rest ih =>
    obtain ⟨k', v'⟩ := p
    by_cases hk : k' = k
    · rw [lookupAL, if_pos hk] at h
      exact absurd h (by simp)
    · rw [lookupAL, if_neg hk] at h
      simp only [keysAL, List.map_cons, List.mem_cons]
      rintro (he | he)
      · exact hk he.symm
      · exact ih h he

/-- A key that looks up successfully is among the keys. -/
theorem mem_keys_of_lookup_some {α : Type} (m : List (Str × α)) (k : Str) (w : α)
    (h : lookupAL m k = some w) : k ∈ keysAL m := by
  induction m with
  | nil => exact absurd h (by simp [lookupAL])
  | cons p rest ih =>
    obtain ⟨k', v'⟩ := p
    by_cases hk : k' = k
    · subst hk
      simp only [keysAL, List.map_cons]
      exact List.mem_cons_self _ _
    · rw [lookupAL, if_neg hk] at h
      simp only [keysAL, List.map_cons, List.mem_cons]
      exact Or.inr (ih h)

/-- Positional parameters leave the named-key sequence unchanged. -/
theorem namedKeys_cons_empty (v : Str) (rest : List (Str × Str)) :
    namedKeys (([], v) :: rest) = namedKeys rest := by
  simp [namedKeys]

/-- A named parameter contributes its name to the named-key sequence. -/
theorem namedKeys_cons_named (n v : Str) (rest : List (Str × Str)) (h : n ≠ []) :
    namedKeys ((n, v) :: rest) = n :: namedKeys rest := by
  simp [namedKeys, h]

/-- A successful collection pass implies the named keys seen so far plus
the incoming named keys are pairwise distinct. -/
theorem collectArgs_ok_nodup (args : List (Str × Str)) :
    ∀ (named : List (Str × Str)) (idx : List Str) (p : List (Str × Str) × List Str),
    collectArgs args named idx = .ok p → (keysAL named).Nodup →
    (keysAL named ++ namedKeys args).Nodup := by
  induction args with
  | nil =>
    intro named idx p _ hn
    simpa [namedKeys] using hn
  | cons a rest ih =>
    intro named idx p h hn
    obtain ⟨n, v⟩ := a
    by_cases he : n = []
    · subst he
      rw [namedKeys_cons_empty]
      exact ih named _ p (by simpa [collectArgs] using h) hn
    · rw [namedKeys_cons_named n v rest he]
      simp only [collectArgs, he, if_false] at h
      cases hi : (insertAL named n v).2 with
      | some w =>
        rw [hi] at h
        exact absurd h (by simp)
      | none =>
        rw [hi] at h
        have hlk : lookupAL named n = none := by
          rw [← insertAL_snd]
          exact hi
        have hkeys : keysAL (insertAL named n v).1 = keysAL named ++ [n] :=
          keysAL_insert_of_lookup_none named n v hlk
        have hnodup' : (keysAL (insertAL named n v).1).Nodup := by
          rw [hkeys]
          refine List.Nodup.append hn (List.nodup_singleton n) ?_
          intro x hx hx'
          have hxn : x = n := by simpa using hx'
          rw [hxn] at hx
          exact not_mem_keys_of_lookup_none named n hlk hx
        have hrec := ih _ idx p h hnodup'
        rw [hkeys] at hrec
        simpa [List.append_assoc] using hrec

/-- A failing collection pass names a parameter that was supplied at least
twice (counting keys already in the accumulator). -/
theorem collectArgs_error_mem (args : List (Str × Str)) :
    ∀ (named : List (Str × Str)) (idx : List Str) (m : Str),
    collectArgs args named idx = .error m →
    m ∈ namedKeys args ∧ (m ∈ keysAL named ∨ 2 ≤ (namedKeys args).count m) := by
  induction args with
  | nil =>
    intro named idx m h
    exact absurd h (by simp [collectArgs])
  | cons a rest ih =>
    intro named idx m h
    obtain ⟨n, v⟩ := a
    by_cases he : n = []
    · subst he
      rw [namedKeys_cons_empty]
      exact ih named _ m (by simpa [collectArgs] using h)
    · rw [namedKeys_cons_named n v rest he]
      simp only [collectArgs, he, if_false] at h
      cases hi : (insertAL named n v).2 with
      | some w =>
        rw [hi] at h
        have hm : n = m := by
          have := h
          simp only [Except.error.injEq] at this
          exact this
        subst hm
        have hlk : lookupAL named n = some w := by
          rw [← insertAL_snd]
          exact hi
        exact ⟨List.mem_cons_self .., Or.inl (mem_keys_of_lookup_some named n w hlk)⟩
      | none =>
        rw [hi] at h
        obtain ⟨hmem, hside⟩ := ih _ idx m h
        refine ⟨List.mem_cons_of_mem _ hmem, ?_⟩
        have hlk : lookupAL named n = none := by
          rw [← insertAL_snd]
          exact hi
        cases hside with
        | inl hk =>
          rw [keysAL_insert_of_lookup_none named n v hlk] at hk
          rcases List.mem_append.mp hk with hk | hk
          · exact Or.inl hk
          · have hmn : m = n := by simpa using hk
            subst hmn
            right
            have hpos : 0 < (namedKeys rest).count m := List.count_pos_iff.mpr hmem
            rw [List.count_cons_self]
            omega
        | inr hc =>
          right
          rw [List.count_cons]
          split <;> omega

/-- The removed-value component of a removal is the lookup result. -/
theorem removeAL_fst {α : Type} (m : List (Str × α)) (k : Str) :
    (removeAL m k).1 = lookupAL m k := by
  induction m with
  | nil => rfl
  | cons p rest ih =>
    obtain ⟨k', v'⟩ := p
    by_cases h : k' = k
    · simp [removeAL, lookupAL, h]
    · simp [removeAL, lookupAL, h, ih]

/-- Removing one key leaves lookups of other keys unchanged. -/
theorem removeAL_lookup_ne {α : Type} (m : List (Str × α)) (k k' : Str) (h : k' ≠ k) :
    lookupAL (removeAL m k).2 k' = lookupAL m k' := by
  induction m with
  | nil => rfl
  | cons p rest ih =>
    obtain ⟨k0, v0⟩ := p
    by_cases h0 : k0 = k
    · subst h0
      have hne : ¬ (k0 = k') := fun hk => h hk.symm
      simp [removeAL, lookupAL, hne]
    · by_cases hk : k0 = k'
      · simp [removeAL, lookupAL, h0, hk, h]
      · simp [removeAL, lookupAL, h0, hk, ih]

/-- The positional-value queue collected from a reduced parameter list is
the queue so far followed by the unnamed parameters' values in input
order. -/
theorem collectArgs_ok_indexed (args : List (Str × Str)) :
    ∀ (named : List (Str × Str)) (idx : List Str) (p : List (Str × Str) × List Str),
    collectArgs args named idx = .ok p →
    p.2 = idx ++ (args.filter fun a => a.1.isEmpty).map (·.2) := by
  induction args with
  | nil =>
    intro named idx p h
    simp only [collectArgs, Except.ok.injEq] at h
    rw [← h]
    simp
  | cons a rest ih =>
    intro named idx p h
    obtain ⟨n, v⟩ := a
    by_cases he : n = []
    · subst he
      simp only [collectArgs, if_pos rfl] at h
      have hr := ih _ _ _ h
      rw [hr]
      simp [List.filter_cons]
    · have hemp : n.isEmpty = false := by
        cases n with
        | nil => exact absurd rfl he
        | cons c cs => rfl
      simp only [collectArgs, if_neg he] at h
      cases hi : (insertAL named n v).2 with
      | some w =>
        rw [hi] at h
        exact absurd h (by simp)
      | none =>
        rw [hi] at h
        have hr := ih _ _ _ h
        rw [hr]
        simp [List.filter_cons, hemp]

/-- Characterization of the definition-processing pass under the registry
invariant that a command's parameter names are unique: the deferred
mandatory and optional queues are exactly the declaration-ordered
definitions that were not supplied by name, are not flags, and have the
corresponding optionality. -/
theorem processDefs_ok_missing (defs : List CallbackArgumentDefinition) :
    ∀ (named : List (Str × Str)) (complete : ArgMap)
      (mm0 mo0 : List CallbackArgumentDefinition)
      (out : ArgMap × List CallbackArgumentDefinition × List CallbackArgumentDefinition),
    (defs.map (·.name)).Nodup →
    processDefs defs named complete mm0 mo0 = .ok out →
    out.2.1 = mm0 ++ defs.filter
        (fun d => (lookupAL named d.name).isNone && !isFlagType d.cba_type && !d.optional) ∧
    out.2.2 = mo0 ++ defs.filter
        (fun d => (lookupAL named d.name).isNone && !isFlagType d.cba_type && d.optional) := by
  induction defs with
  | nil =>
    intro named complete mm0 mo0 out _ h
    simp only [processDefs, Except.ok.injEq] at h
    rw [← h]
    simp
  | cons d rest ih =>
    intro named complete mm0 mo0 out hnd h
    have hnd' : (rest.map (·.name)).Nodup := (List.nodup_cons.mp hnd).2
    have hdnot : d.name ∉ rest.map (·.name) := (List.nodup_cons.mp hnd).1
    have hcongr : ∀ (m' : List (Str × Str)),
        (∀ x ∈ rest, lookupAL m' x.name = lookupAL named x.name) →
        ∀ (q : Bool → Bool),
        rest.filter (fun d0 => (lookupAL m' d0.name).isNone
            && !isFlagType d0.cba_type && q d0.optional)
          = rest.filter (fun d0 => (lookupAL named d0.name).isNone
            && !isFlagType d0.cba_type && q d0.optional) := by
      intro m' hsame q
      apply List.filter_congr
      intro x hx
      rw [hsame x hx]
    cases hr : removeAL named d.name with
    | mk ro rnamed =>
      simp only [processDefs, hr] at h
      have hlk : lookupAL named d.name = ro := by
        rw [← removeAL_fst, hr]
      cases ro with
      | some value =>
        cases hp : parse_value_via_definition value d with
        | none =>
          simp only [hp] at h
          exact absurd h (by simp)
        | some av =>
          simp only [hp] at h
          have hsame : ∀ x ∈ rest, lookupAL rnamed x.name = lookupAL named x.name := by
            intro x hx
            have hxd : x.name ≠ d.name := by
              intro hx'
              exact hdnot (hx' ▸ List.mem_map_of_mem (·.name) hx)
            have := removeAL_lookup_ne named d.name x.name hxd
            rw [hr] at this
            exact this
          obtain ⟨e1, e2⟩ := ih rnamed _ mm0 mo0 out hnd' h
          rw [hcongr rnamed hsame (fun b => !b)] at e1
          rw [hcongr rnamed hsame (fun b => b)] at e2
          constructor
          · rw [e1]
            congr 1
            simp [List.filter_cons, hlk]
          · rw [e2]
            congr 1
            simp [List.filter_cons, hlk]
      | none =>
        by_cases hft : isFlagType d.cba_type = true
        · simp only [hft, if_true] at h
          obtain ⟨e1, e2⟩ := ih named _ mm0 mo0 out hnd' h
          constructor
          · rw [e1]
            congr 1
            simp [List.filter_cons, hft]
          · rw [e2]
            congr 1
            simp [List.filter_cons, hft]
        · simp only [hft, if_false] at h
          have hftf : isFlagType d.cba_type = false := by
            cases hb : isFlagType d.cba_type
            · rfl
            · exact absurd hb hft
          by_cases hop : d.optional = true
          · simp only [hop, if_true] at h
            obtain ⟨e1, e2⟩ := ih named _ mm0 (mo0 ++ [d]) out hnd' h
            constructor
            · rw [e1]
              congr 1
              simp [List.filter_cons, hlk, hftf, hop]
            · rw [e2, List.append_assoc]
              congr 1
              simp [List.filter_cons, hlk, hftf, hop]
          · have hopf : d.optional = false := by
              cases hb : d.optional
              · rfl
              · exact absurd hb hop
            simp only [hopf, if_false] at h
            obtain ⟨e1, e2⟩ := ih named _ (mm0 ++ [d]) mo0 out hnd' h
            constructor
            · rw [e1, List.append_assoc]
              congr 1
              simp [List.filter_cons, hlk, hftf, hopf]
            · rw [e2]
              congr 1
              simp [List.filter_cons, hlk, hftf, hopf]

/-- The consumption loop, run for exactly the number of positional values,
performs the pairwise insertions computed by `zipParseAll`. -/
theorem consumeIndexed_zip (vals : List Str) :
    ∀ (defs : List CallbackArgumentDefinition) (complete : ArgMap) (pairs : ArgMap),
    zipParseAll vals defs = some pairs →
    consumeIndexed vals.length vals defs complete = .ok (insertAll complete pairs) := by
  induction vals with
  | nil =>
    intro defs complete pairs h
    simp only [zipParseAll, Option.some.injEq] at h
    rw [← h]
    rfl
  | cons v vals ih =>
    intro defs complete pairs h
    cases defs with
    | nil => exact absurd h (by simp [zipParseAll])
    | cons d rest =>
      simp only [zipParseAll] at h
      cases hp : parse_value_via_definition v d with
      | none =>
        rw [hp] at h
        exact absurd h (by simp)
      | some av =>
        rw [hp] at h
        cases hz : zipParseAll vals rest with
        | none =>
          rw [hz] at h
          exact absurd h (by simp)
        | some pairs' =>
          rw [hz] at h
          simp only [Option.some.injEq] at h
          rw [← h]
          simp only [List.length_cons, consumeIndexed, hp]
          exact ih rest (insertAL complete d.name av).1 pairs' hz

/-- C5: under the registry invariant of unique parameter names, after the
collection and definition-processing passes succeed, the positional queue
is the input-ordered list of unnamed values, the missing queues are the
declaration-ordered unfilled non-flag definitions partitioned mandatory
then optional, a positional count below the mandatory count fails with
`TooFewArguments`, and a count between the mandatory and total counts binds
by consuming exactly that many positional values in order against the
concatenation mandatory-then-optional, parsing each value with the
corresponding definition's type. -/
theorem c5_positional_binding (args : List (Str × Str))
    (defs : List CallbackArgumentDefinition) (named : List (Str × Str))
    (indexed : List Str) (complete : ArgMap)
    (mm mo : List CallbackArgumentDefinition)
    (hnodup : (defs.map (·.name)).Nodup)
    (h1 : collectArgs args [] [] = .ok (named, indexed))
    (h2 : processDefs defs named [] [] [] = .ok (complete, mm, mo)) :
    indexed = (args.filter fun a => a.1.isEmpty).map (·.2) ∧
    mm = defs.filter
      (fun d => (lookupAL named d.name).isNone && !isFlagType d.cba_type && !d.optional) ∧
    mo = defs.filter
      (fun d => (lookupAL named d.name).isNone && !isFlagType d.cba_type && d.optional) ∧
    (indexed.length < mm.length → bindArgs args defs = .err .tooFewArguments) ∧
    (∀ pairs, mm.length ≤ indexed.length → zipParseAll indexed (mm ++ mo) = some pairs →
      bindArgs args defs = .ok (insertAll complete pairs)) := by
  obtain ⟨e1, e2⟩ := processDefs_ok_missing defs named [] [] [] (complete, mm, mo) hnodup h2
  refine ⟨?_, by simpa using e1, by simpa using e2, ?_, ?_⟩
  · have hidx := collectArgs_ok_indexed args [] [] (named, indexed) h1
    simpa using hidx
  · intro hlt
    have hnle : ¬ (mm.length ≤ indexed.length) := by omega
    have hle2 : indexed.length ≤ mm.length + mo.length := by omega
    simp [bindArgs, h1, h2, hnle, hle2]
  · intro pairs hle hz
    have hc := consumeIndexed_zip indexed (mm ++ mo) complete pairs hz
    simp [bindArgs, h1, h2, hle, hc]

/-- C5 witness: definitions `[mandatory a, optional b, mandatory c]` (all
`String`-typed) with two unnamed positional values bind the two mandatory
slots `a` and `c` in order, leaving the optional `b` absent. -/
theorem c5_positional_binding_witness :
    bindArgs [([], "x".data), ([], "y".data)]
        [⟨"a".data, .String, false⟩, ⟨"b".data, .String, true⟩, ⟨"c".data, .String, false⟩]
      = .ok [("a".data, .String "x".data), ("c".data, .String "y".data)] := by
  have h := c5_positional_binding [([], "x".data), ([], "y".data)]
    [⟨"a".data, .String, false⟩, ⟨"b".data, .String, true⟩, ⟨"c".data, .String, false⟩]
    [] ["x".data, "y".data] []
    [⟨"a".data, .String, false⟩, ⟨"c".data, .String, false⟩]
    [⟨"b".data, .String, true⟩]
    (by decide) rfl rfl
  have h5 := h.2.2.2.2 [("a".data, CallbackArgumentValue.String "x".data),
    ("c".data, CallbackArgumentValue.String "y".data)] (by decide) rfl
  exact h5.trans (by decide)

/-- C6: the escape-decoding claim is violated by the code.  The reducer
compares the expanded escaped character against the Rust literals `"\n"`
(an actual line feed) rather than the letter `n`, so the typed two-character
sequences backslash-`n`, backslash-`r`, backslash-`t` pass the letter
through raw with an unrecognized-escape warning; only backslash-quote and
backslash-backslash decode as claimed.  The spec's example input
`cmd name: "a\"b\nc"` therefore reduces to `a"bnc` (with a warning), not to
`a"b` + newline + `c`. -/
theorem c6_escape_decoding_diverges :
    expand_parse_tree_node (escapeNode "n".data)
      = some ("n".data, [unrecognizedEscapeWarning "n".data]) ∧
    expand_parse_tree_node (escapeNode "r".data)
      = some ("r".data, [unrecognizedEscapeWarning "r".data]) ∧
    expand_parse_tree_node (escapeNode "t".data)
      = some ("t".data, [unrecognizedEscapeWarning "t".data]) ∧
    expand_parse_tree_node (escapeNode "\"".data) = some ("\"".data, []) ∧
    expand_parse_tree_node (escapeNode "\\".data) = some ("\\".data, []) ∧
    expand_command_param_value c6ValueNodes
      = some ("a\"bnc".data, [unrecognizedEscapeWarning "n".data]) ∧
    decide ("a\"bnc".data = "a\"b\nc".data) = false := by
  decide

/-- An index that looks up a value is in bounds. -/
theorem get?_lt {β : Type} (l : List β) (j : Nat) (a : β) (h : l.get? j = some a) :
    j < l.length := by
  by_contra hge
  rw [List.get?_eq_none.mpr (Nat.le_of_not_lt hge)] at h
  exact absurd h (by simp)

/-- Indexing with a default returns the stored element when the lookup
succeeds. -/
theorem getD_of_get?_some {β : Type} (l : List β) :
    ∀ (i : Nat) (a d : β), l.get? i = some a → l.getD i d = a := by
  induction l with
  | nil =>
    intro i a d h
    exact absurd h (by simp)
  | cons x rest ih =>
    intro i a d h
    cases i with
    | zero =>
      have : x = a := by simpa using h
      simpa [List.getD] using this
    | succ i =>
      have h' : rest.get? i = some a := by simpa using h
      simpa [List.getD] using ih i a d h'

/-- The candidate list produced by the gathering loop is the accumulator
followed by the prefix-filtered command names, in order. -/
theorem gatherLoop_fst (cs : List Str) :
    ∀ (input : Str) (pname : Option Str) (acc : List Str) (it : Nat) (pidx : Option Nat),
    (gatherLoop cs input pname acc it pidx).1
      = acc ++ cs.filter (fun c => strStartsWith c input) := by
  induction cs with
  | nil =>
    intro input pname acc it pidx
    simp [gatherLoop]
  | cons c rest ih =>
    intro input pname acc it pidx
    by_cases h : strStartsWith c input
    · simp [gatherLoop, h, ih, List.filter_cons]
    · simp [gatherLoop, h, ih, List.filter_cons]

/-- The gathering loop can only lose a tracked index that was never set. -/
theorem gatherLoop_snd_none_mono (cs : List Str) :
    ∀ (input : Str) (pname : Option Str) (acc : List Str) (it : Nat) (pidx : Option Nat),
    (gatherLoop cs input pname acc it pidx).2 = none → pidx = none := by
  induction cs with
  | nil =>
    intro input pname acc it pidx h
    simpa [gatherLoop] using h
  | cons c rest ih =>
    intro input pname acc it pidx h
    by_cases hs : strStartsWith c input
    · simp only [gatherLoop, hs, if_true] at h
      have hp := ih _ _ _ _ _ h
      cases pname with
      | none => simpa [trackIdx] using hp
      | some n =>
        simp only [trackIdx] at hp
        by_cases hc : c = n
        · rw [if_pos hc] at hp
          exact absurd hp (by simp)
        · rwa [if_neg hc] at hp
    · simp only [gatherLoop, hs, if_false] at h
      exact ih _ _ _ _ _ h

/-- A tracked index survives the gathering loop. -/
theorem gatherLoop_snd_isSome (cs : List Str) (input : Str) (pname : Option Str)
    (acc : List Str) (it : Nat) (j : Nat) :
    ((gatherLoop cs input pname acc it (some j)).2).isSome := by
  cases hres : (gatherLoop cs input pname acc it (some j)).2 with
  | none => exact absurd (gatherLoop_snd_none_mono cs input pname acc it (some j) hres) (by simp)
  | some _ => rfl

/-- Without a previously selected name no index is ever tracked. -/
theorem gatherLoop_snd_pname_none (cs : List Str) :
    ∀ (input : Str) (acc : List Str) (it : Nat) (pidx : Option Nat),
    (gatherLoop cs input none acc it pidx).2 = pidx := by
  induction cs with
  | nil =>
    intro input acc it pidx
    rfl
  | cons c rest ih =>
    intro input acc it pidx
    by_cases hs : strStartsWith c input
    · simp only [gatherLoop, hs, if_true, trackIdx]
      exact ih _ _ _ _
    · simp only [gatherLoop, hs, if_false]
      exact ih _ _ _ _

/-- Loop invariant of the gathering pass: when the running match counter
equals the accumulator length and any already-tracked index points at the
previously selected name inside the accumulator, the final tracked index
points at that name inside the final candidate list. -/
theorem gatherLoop_invariant (cs : List Str) :
    ∀ (input n : Str) (acc : List Str) (it : Nat) (pidx : Option Nat),
    it = acc.length →
    (∀ i, pidx = some i → acc.get? i = some n) →
    ∀ i, (gatherLoop cs input (some n) acc it pidx).2 = some i →
      (gatherLoop cs input (some n) acc it pidx).1.get? i = some n := by
  induction cs with
  | nil =>
    intro input n acc it pidx _ hinv i h
    simp only [gatherLoop] at h ⊢
    exact hinv i h
  | cons c rest ih =>
    intro input n acc it pidx hit hinv i h
    by_cases hs : strStartsWith c input
    · simp only [gatherLoop, hs, if_true] at h ⊢
      refine ih input n (acc ++ [c]) (it + 1) _ (by simp [hit]) ?_ i h
      intro j hj
      simp only [trackIdx] at hj
      by_cases hc : c = n
      · rw [if_pos hc] at hj
        have hj' : j = it := (Option.some.inj hj).symm
        subst hj'
        rw [hit, List.get?_concat_length]
        rw [hc]
      · rw [if_neg hc] at hj
        have hacc := hinv j hj
        rw [List.get?_append (get?_lt acc j n hacc)]
        exact hacc
    · simp only [gatherLoop, hs, if_false] at h ⊢
      exact ih input n acc it pidx hit hinv i h

/-- A previously selected name that survives the prefix filter is found by
the gathering loop. -/
theorem gatherLoop_found (cs : List Str) :
    ∀ (input n : Str) (acc : List Str) (it : Nat) (pidx : Option Nat),
    n ∈ cs.filter (fun c => strStartsWith c input) →
    ((gatherLoop cs input (some n) acc it pidx).2).isSome := by
  induction cs with
  | nil =>
    intro input n acc it pidx h
    exact absurd h (by simp)
  | cons c rest ih =>
    intro input n acc it pidx h
    by_cases hs : strStartsWith c input
    · simp only [gatherLoop, hs, if_true]
      simp only [trackIdx]
      by_cases hc : c = n
      · rw [if_pos hc]
        exact gatherLoop_snd_isSome ..
      · rw [if_neg hc]
        apply ih
        simp only [List.filter_cons, hs, if_true] at h
        rcases List.mem_cons.mp h with he | he
        · exact absurd he.symm hc
        · exact he
    · simp only [gatherLoop, hs, if_false]
      apply ih
      simpa [List.filter_cons, hs] using h

/-- C7: a submitted line supplying the same named parameter (or flag) twice
fails with `DuplicateParameter` naming a repeated parameter, and the
callback is not invoked (the outcome is an error, not `ok`). -/
theorem c7_duplicate_parameter (args : List (Str × Str))
    (defs : List CallbackArgumentDefinition) (h : ¬ (namedKeys args).Nodup) :
    ∃ m, bindArgs args defs = .err (.duplicateParameter m) ∧
      2 ≤ (namedKeys args).count m := by
  cases hc : collectArgs args [] [] with
  | ok p =>
    have hok := collectArgs_ok_nodup args [] [] p hc (by simp [keysAL])
    exact absurd (by simpa [keysAL] using hok) h
  | error m =>
    obtain ⟨hmem, hside⟩ := collectArgs_error_mem args [] [] m hc
    refine ⟨m, by simp [bindArgs, hc], ?_⟩
    cases hside with
    | inl hk => exact absurd hk (by simp [keysAL])
    | inr hc2 => exact hc2

/-- C7 witness: supplying the flag `f` twice fails with the duplicate error
naming `f`. -/
theorem c7_duplicate_parameter_witness :
    ∃ m, bindArgs [("f".data, "true".data), ("f".data, "true".data)] []
        = .err (.duplicateParameter m) ∧
      2 ≤ (namedKeys [("f".data, "true".data), ("f".data, "true".data)]).count m :=
  c7_duplicate_parameter [("f".data, "true".data), ("f".data, "true".data)] [] (by decide)

/-- Shape of the value parser at a `Bool`-typed definition. -/
theorem parse_value_bool_form (d : CallbackArgumentDefinition)
    (hd : d.cba_type = .Bool) (v : Str) :
    parse_value_via_definition v d =
      (match rustParseBool v with
       | some x => some (.Bool x)
       | none =>
         if v.length = 1 then
           if strStartsWith v "0".data then some (.Bool false)
           else if strStartsWith v "1".data then some (.Bool true)
           else none
         else none) := by
  unfold parse_value_via_definition
  rw [hd]

/-- C9: parsing a raw string against a `Bool`-typed definition yields
`Bool(true)` for `true`, `Bool(false)` for `false`, `Bool(false)` for the
one-character string `0`, `Bool(true)` for the one-character string `1`,
and fails for every other string. -/
theorem c9_bool_value_parse_rules (d : CallbackArgumentDefinition)
    (hd : d.cba_type = .Bool) (s : Str)
    (h1 : s ≠ "true".data) (h2 : s ≠ "false".data)
    (h3 : s ≠ "0".data) (h4 : s ≠ "1".data) :
    parse_value_via_definition "true".data d = some (.Bool true) ∧
    parse_value_via_definition "false".data d = some (.Bool false) ∧
    parse_value_via_definition "0".data d = some (.Bool false) ∧
    parse_value_via_definition "1".data d = some (.Bool true) ∧
    parse_value_via_definition s d = none := by
  have d0 : "0".data = ['0'] := rfl
  have d1 : "1".data = ['1'] := rfl
  refine ⟨?_, ?_, ?_, ?_, ?_⟩
  · rw [parse_value_bool_form d hd]; decide
  · rw [parse_value_bool_form d hd]; decide
  · rw [parse_value_bool_form d hd]; decide
  · rw [parse_value_bool_form d hd]; decide
  · rw [parse_value_bool_form d hd]
    have hrb : rustParseBool s = none := by
      unfold rustParseBool
      rw [if_neg h1, if_neg h2]
    rw [hrb]
    rcases s with _ | ⟨c, _ | ⟨c2, rest⟩⟩
    · rfl
    · have hc0 : c ≠ '0' := by
        intro h
        exact h3 (by rw [d0, h])
      have hc1 : c ≠ '1' := by
        intro h
        exact h4 (by rw [d1, h])
      simp [strStartsWith, d0, d1, hc0, hc1]
    · simp [List.length]

/-- C9 witness: the parser facts at a concrete `Bool` definition and the
concrete non-boolean string `maybe`. -/
theorem c9_bool_value_parse_rules_witness :
    parse_value_via_definition "true".data ⟨"b".data, .Bool, false⟩ = some (.Bool true) ∧
    parse_value_via_definition "false".data ⟨"b".data, .Bool, false⟩ = some (.Bool false) ∧
    parse_value_via_definition "0".data ⟨"b".data, .Bool, false⟩ = some (.Bool false) ∧
    parse_value_via_definition "1".data ⟨"b".data, .Bool, false⟩ = some (.Bool true) ∧
    parse_value_via_definition "maybe".data ⟨"b".data, .Bool, false⟩ = none :=
  c9_bool_value_parse_rules ⟨"b".data, .Bool, false⟩ rfl "maybe".data
    (by decide) (by decide) (by decide) (by decide)

/-- C8: after an edit of the console input text the candidate list equals
exactly the registry's command names that start with the input text, in
registry iteration order (any ordering of the registry key sequence is
preserved, so the `BTreeMap`'s lexicographic order carries over); a
previously selected name still present stays selected at its new index;
otherwise index 0 is selected when the list is non-empty and the selection
is cleared when it is empty; on empty input the list is empty and the
selection cleared; and an existing selection always refers to the element
of the current candidate list at its index. -/
theorem c8_autocomplete_recompute (commands : List Str) (input : Str)
    (prev : Option (Str × Nat)) (cands : List Str) (sel : Option (Str × Nat))
    (h : recomputeAutocomplete commands input prev = (cands, sel)) :
    (input = [] → cands = [] ∧ sel = none) ∧
    (input ≠ [] → cands = commands.filter (fun c => strStartsWith c input)) ∧
    (∀ rel : Str → Str → Prop, commands.Pairwise rel → cands.Pairwise rel) ∧
    (∀ n j, prev = some (n, j) → n ∈ cands → ∃ i, sel = some (n, i)) ∧
    (∀ n j, prev = some (n, j) → n ∉ cands → cands ≠ [] →
      sel = some (cands.getD 0 [], 0)) ∧
    (prev = none → cands ≠ [] → sel = some (cands.getD 0 [], 0)) ∧
    (cands = [] → sel = none) ∧
    (∀ n i, sel = some (n, i) → cands.get? i = some n) := by
  by_cases hin : input = []
  · rw [recomputeAutocomplete, if_pos hin] at h
    injection h with h1 h2
    subst h1
    subst h2
    refine ⟨fun _ => ⟨rfl, rfl⟩, fun hne => absurd hin hne, ?_, ?_, ?_, ?_, ?_, ?_⟩
    · intro rel _
      exact List.Pairwise.nil
    · intro n j _ hmem
      exact absurd hmem (by simp)
    · intro n j _ _ hne
      exact absurd rfl hne
    · intro _ hne
      exact absurd rfl hne
    · intro _
      rfl
    · intro n i hsel
      exact absurd hsel (by simp)
  · rw [recomputeAutocomplete, if_neg hin] at h
    cases hg : gatherLoop commands input (prev.map (·.1)) [] 0 none with
    | mk g1 g2 =>
      rw [hg] at h
      have hg1 : g1 = commands.filter (fun c => strStartsWith c input) := by
        have hf := gatherLoop_fst commands input (prev.map (·.1)) [] 0 none
        rw [hg] at hf
        simpa using hf
      have hprevnone : prev = none → g2 = none := by
        intro hp
        have hpn := gatherLoop_snd_pname_none commands input [] 0 none
        rw [hp] at hg
        simp only [Option.map_none'] at hg
        rw [hg] at hpn
        exact hpn
      have hprevinv : ∀ n j idx, prev = some (n, j) → g2 = some idx →
          g1.get? idx = some n := by
        intro n j idx hp hidx
        have hg' := hg
        rw [hp] at hg'
        simp only [Option.map_some'] at hg'
        have hi := gatherLoop_invariant commands input n [] 0 none rfl
          (fun i hi => absurd hi (by simp)) idx
          (by rw [hg', hidx])
        rw [hg'] at hi
        simpa using hi
      have hfound : ∀ n j, prev = some (n, j) →
          n ∈ commands.filter (fun c => strStartsWith c input) → g2.isSome := by
        intro n j hp hmem
        have hg' := hg
        rw [hp] at hg'
        simp only [Option.map_some'] at hg'
        have hf := gatherLoop_found commands input n [] 0 none hmem
        rw [hg'] at hf
        exact hf
      cases g2 with
      | some idx =>
        injection h with h1 h2
        subst h1
        subst h2
        refine ⟨fun he => absurd he hin, fun _ => hg1, ?_, ?_, ?_, ?_, ?_, ?_⟩
        · intro rel hrel
          rw [hg1]
          exact List.Pairwise.sublist (List.filter_sublist commands) hrel
        · intro n j hp _
          have hget := hprevinv n j idx hp rfl
          exact ⟨idx, by rw [getD_of_get?_some g1 idx n [] hget]⟩
        · intro n j hp hnmem _
          have hget := hprevinv n j idx hp rfl
          exact absurd (List.get?_mem hget) hnmem
        · intro hp _
          exact absurd (hprevnone hp) (by simp)
        · intro hcand
          cases hp : prev with
          | none => exact absurd (hprevnone hp) (by simp)
          | some p =>
            obtain ⟨pn, pj⟩ := p
            have hget := hprevinv pn pj idx hp rfl
            rw [hcand] at hget
            exact absurd hget (by simp)
        · intro n i hsel
          cases hp : prev with
          | none => exact absurd (hprevnone hp) (by simp)
          | some p =>
            obtain ⟨pn, pj⟩ := p
            have hget := hprevinv pn pj idx hp rfl
            injection hsel with hsel'
            injection hsel' with hname hidx
            rw [← hidx]
            rw [← hname, getD_of_get?_some g1 idx pn [] hget]
            exact hget
      | none =>
        have h' : (if g1.isEmpty then (g1, (none : Option (Str × Nat)))
            else (g1, some (g1.getD 0 [], 0))) = (cands, sel) := h
        by_cases hemp : g1.isEmpty
        · rw [if_pos hemp] at h'
          injection h' with h1 h2
          subst h1
          subst h2
          have hnil : g1 = [] := List.isEmpty_iff.mp hemp
          refine ⟨fun he => absurd he hin, fun _ => hg1, ?_, ?_, ?_, ?_, ?_, ?_⟩
          · intro rel hrel
            rw [hg1]
            exact List.Pairwise.sublist (List.filter_sublist commands) hrel
          · intro n j _ hmem
            rw [hnil] at hmem
            exact absurd hmem (by simp)
          · intro n j _ _ hne
            exact absurd hnil hne
          · intro _ hne
            exact absurd hnil hne
          · intro _
            rfl
          · intro n i hsel
            exact absurd hsel (by simp)
        · rw [if_neg hemp] at h'
          injection h' with h1 h2
          subst h1
          subst h2
          have hne : g1 ≠ [] := fun he => hemp (by rw [he]; rfl)
          refine ⟨fun he => absurd he hin, fun _ => hg1, ?_, ?_, ?_, ?_, ?_, ?_⟩
          · intro rel hrel
            rw [hg1]
            exact List.Pairwise.sublist (List.filter_sublist commands) hrel
          · intro n j hp hmem
            rw [hg1] at hmem
            exact absurd (hfound n j hp hmem) (by simp)
          · intro n j _ _ _
            rfl
          · intro _ _
            rfl
          · intro hcand
            exact absurd hcand hne
          · intro n i hsel
            injection hsel with hsel'
            injection hsel' with hname hidx
            cases hg1c : g1 with
            | nil => exact absurd hg1c hne
            | cons a rest =>
              rw [← hidx, ← hname, hg1c]
              simp [List.getD]

/-- C8 witness: with only `quit` registered and the previous selection
`quit` from input `qu`, the edit to `qui` keeps `quit` selected. -/
theorem c8_autocomplete_recompute_witness :
    ∃ i, (recomputeAutocomplete ["quit".data] "qui".data (some ("quit".data, 0))).2
      = some ("quit".data, i) := by
  have h := c8_autocomplete_recompute ["quit".data] "qui".data (some ("quit".data, 0))
    (recomputeAutocomplete ["quit".data] "qui".data (some ("quit".data, 0))).1
    (recomputeAutocomplete ["quit".data] "qui".data (some ("quit".data, 0))).2
    rfl
  exact h.2.2.2.1 "quit".data 0 rfl (by decide)

/-- C10 witness: the navigation facts at a concrete two-element candidate
list with the first candidate selected. -/
theorem c10_nav_wraps_witness :
    navUp ["qa".data, "qb".data] (some ("qa".data, 0)) = some ("qb".data, 1) ∧
    navDown ["qa".data, "qb".data] (some ("qa".data, 0)) = some ("qb".data, 1) := by
  have h := c10_nav_wraps ["qa".data, "qb".data] "qa".data 0 (by decide) (by decide)
  exact ⟨(h.1 rfl).trans (by decide), (h.2.2.2.1 (by decide)).trans (by decide)⟩

end K9
